import Mathlib

/-!
Verification development for the `es-log-trimmer` repository.

The Go sources are shallowly embedded as executable Lean definitions:

* machine integers (`int64`, `time.Duration`) are modelled as unbounded `Int`;
  where Go wrap-around is reachable it is made explicit with `int64wrap`;
* `time.Time` values are modelled as nanoseconds since the Unix epoch; the Go
  zero value `time.Time{}` (an *unset* creation date) corresponds to the
  constant `goZeroNs` (January 1, year 1 UTC), and an `IndexInfo.creationDate`
  of `none` denotes a field never set by enrichment, which Go reads back as
  that zero value;
* `float64` arithmetic in the parsers/formatter is modelled by exact rational
  arithmetic, carried out over integers (numerator/denominator kept explicit);
  the final `int64(...)` conversion of a non-negative value is integer division;
* Go regular expressions are modelled by hand-rolled deterministic matchers
  with the same accepted language on the relevant inputs;
* fallible functions return `Option` (`none` = the Go function returned a
  non-nil error); error message strings are not modelled;
* `sort.Slice` is modelled by an insertion sort using the same comparator.
-/

namespace Trimmer

/-! ## Character and digit helpers (ASCII model of Go's strings package) -/

/-- ASCII decimal digit test, the `\d` class of Go's regexp. -/
def isDigitChar (c : Char) : Bool := 48 ≤ c.toNat && c.toNat ≤ 57

/-- Whitespace class `\s` of Go's regexp: space, tab, newline, form feed,
carriage return, vertical tab. -/
def isSpaceChar (c : Char) : Bool :=
  c = ' ' || c = '\t' || c = '\n' || c.toNat = 11 || c.toNat = 12 || c = '\r'

/-- ASCII model of `strings.ToUpper` on a single character. -/
def toUpperChar (c : Char) : Char :=
  if 97 ≤ c.toNat && c.toNat ≤ 122 then Char.ofNat (c.toNat - 32) else c

/-- ASCII model of `strings.ToLower` on a single character. -/
def toLowerChar (c : Char) : Char :=
  if 65 ≤ c.toNat && c.toNat ≤ 90 then Char.ofNat (c.toNat + 32) else c

/-- The decimal digit character for a value `0`–`9`. -/
def digitChar : Nat → Char
  | 0 => '0' | 1 => '1' | 2 => '2' | 3 => '3' | 4 => '4'
  | 5 => '5' | 6 => '6' | 7 => '7' | 8 => '8' | _ => '9'

/-- Numeric value of a run of decimal digit characters (most significant
first), as read by `strconv`. -/
def digitsToNat (cs : List Char) : Nat :=
  cs.foldl (fun a c => a * 10 + (c.toNat - 48)) 0

/-- Decimal rendering of a natural number, fuelled structurally; with
`fuel > n` it produces the usual digit string of `n` (what Go's `%d` prints
for non-negative values). -/
def toDecCore : Nat → Nat → List Char
  | 0, _ => []
  | fuel + 1, n =>
    if n < 10 then [digitChar n]
    else toDecCore fuel (n / 10) ++ [digitChar (n % 10)]

/-- Decimal digit string of a natural number. -/
def natToChars (n : Nat) : List Char := toDecCore (n + 1) n

/-- Decimal rendering of an integer, the model of Go's `%d`. -/
def intToChars (z : Int) : List Char :=
  if z < 0 then '-' :: natToChars (-z).toNat else natToChars z.toNat

/-- Wrap an unbounded integer into `int64` two's-complement range, the model
of Go's silent `int64` overflow. -/
def int64wrap (z : Int) : Int := (z + 2 ^ 63) % 2 ^ 64 - 2 ^ 63

/-! ## Size and age parsers (`internal/config`, file `part_000`)

`parseSize` implements the Go regexp `^(\d+(?:\.\d+)?)\s*([KMGT]?B?)$` applied
to the upper-cased input, followed by the unit switch and
`int64(value * float64(multiplier))`.  The numeric value `I.F` times the
multiplier `m` is computed exactly as `(I*m*10^L + F*m) / 10^L` with `L` the
number of fraction digits — for the non-negative values produced here this
agrees with Go's float64-truncating conversion on all inputs whose value is
representably far from an integer boundary (in particular on every string the
display formatter emits). -/

/-- Split the leading `\d+(\.\d+)?` number of the regexp: returns the integer
digit run, the fraction digit run (possibly empty) and the remaining
characters, or `none` if there is no leading digit. -/
def matchNumber (cs : List Char) : Option (List Char × List Char × List Char) :=
  let ds := cs.takeWhile isDigitChar
  if ds.isEmpty then none
  else
    let rest := cs.dropWhile isDigitChar
    match rest with
    | c :: r2 =>
      if c = '.' then
        let fs := r2.takeWhile isDigitChar
        if fs.isEmpty then some (ds, [], rest)
        else some (ds, fs, r2.dropWhile isDigitChar)
      else some (ds, [], rest)
    | [] => some (ds, [], rest)

/-- Multiplier switch of `parseSize`.  The unit group `[KMGT]?B?` may also
match a bare `K`/`M`/`G`/`T`, which falls into the Go `default:` branch and is
an error; any other residue fails the regexp match.  Both are `none`. -/
def sizeUnitMult (u : List Char) : Option Int :=
  if u = [] || u = ['B'] then some 1
  else if u = ['K', 'B'] then some 1024
  else if u = ['M', 'B'] then some (1024 ^ 2)
  else if u = ['G', 'B'] then some (1024 ^ 3)
  else if u = ['T', 'B'] then some (1024 ^ 4)
  else none

/-- Core of `parseSize` over an already upper-cased character list. -/
def parseSizeCore (cs : List Char) : Option Int :=
  match matchNumber cs with
  | none => none
  | some (ds, fs, rest) =>
    match sizeUnitMult (rest.dropWhile isSpaceChar) with
    | none => none
    | some m =>
      some (((digitsToNat ds : Int) * m * 10 ^ fs.length
              + (digitsToNat fs : Int) * m) / 10 ^ fs.length)

/-- Model of `config.parseSize`: parse a size string like `"10GB"` into a
byte count. -/
def parseSize (s : String) : Option Int :=
  parseSizeCore (s.toList.map toUpperChar)

/-- Unit switch of `parseAge`, in nanoseconds (Go `time.Duration` units). -/
def ageUnitMult (c : Char) : Option Int :=
  if c = 's' then some 1000000000
  else if c = 'm' then some 60000000000
  else if c = 'h' then some 3600000000000
  else if c = 'd' then some 86400000000000
  else if c = 'w' then some 604800000000000
  else none

/-- Model of `config.parseAge`: regexp `^(\d+)\s*([smhdw])$` on the
lower-cased input, `strconv.Atoi` (with its 64-bit range error), and the
duration multiplication with `int64` wrap-around. -/
def parseAge (s : String) : Option Int :=
  let cs := s.toList.map toLowerChar
  let ds := cs.takeWhile isDigitChar
  if ds.isEmpty then none
  else
    let v : Nat := digitsToNat ds
    match (cs.dropWhile isDigitChar).dropWhile isSpaceChar with
    | [c] =>
      if 2 ^ 63 ≤ v then none
      else (ageUnitMult c).map fun mult => int64wrap ((v : Int) * mult)
    | _ => none

/-! ## Elasticsearch-side size parsing (`internal/elasticsearch/client.go`) -/

/-- Unit switch of `parseESSize`; the regexp group `[kmgt]?b` always contains
a final `b`, and the Go switch covers exactly those five shapes. -/
def esUnitMult (u : List Char) : Option Int :=
  if u = ['b'] then some 1
  else if u = ['k', 'b'] then some 1024
  else if u = ['m', 'b'] then some (1024 ^ 2)
  else if u = ['g', 'b'] then some (1024 ^ 3)
  else if u = ['t', 'b'] then some (1024 ^ 4)
  else none

/-- Model of `parseESSize`: the empty string is special-cased to `(0, nil)`;
otherwise the regexp `^(\d+(?:\.\d+)?)\s*([kmgt]?b)$` on the lower-cased
input, and the same exact-arithmetic value conversion as `parseSize`. -/
def parseESSize (s : String) : Option Int :=
  if s = "" then some 0
  else
    match matchNumber (s.toList.map toLowerChar) with
    | none => none
    | some (ds, fs, rest) =>
      match esUnitMult (rest.dropWhile isSpaceChar) with
      | none => none
      | some m =>
        some (((digitsToNat ds : Int) * m * 10 ^ fs.length
                + (digitsToNat fs : Int) * m) / 10 ^ fs.length)

/-- Model of `strconv.ParseInt(s, 10, 64)`: optional sign, at least one
digit, nothing else, and the value must fit in `int64`. -/
def parseInt10 (s : String) : Option Int :=
  let p : Int × List Char :=
    match s.toList with
    | '+' :: r => (1, r)
    | '-' :: r => (-1, r)
    | r => (1, r)
  if p.2.isEmpty || p.2.any (fun c => !isDigitChar c) then none
  else
    let z : Int := p.1 * (digitsToNat p.2 : Int)
    if z < -(2 ^ 63) || 2 ^ 63 - 1 < z then none else some z

/-- Size computation of `enrichIndexInfo`: try `strconv.ParseInt` on the raw
`store.size` field, fall back to `parseESSize`, and on double failure leave
the zero-initialised `SizeBytes` untouched.  No error is reported from this
part of enrichment. -/
def enrichSizeBytes (storeSize : String) : Int :=
  match parseInt10 storeSize with
  | some n => n
  | none =>
    match parseESSize storeSize with
    | some n => n
    | none => 0

/-! ## Configuration validation (`config.Validate`) -/

/-- Model of `config.Config`, restricted to the fields the analysed code
reads: host, the raw threshold strings, and the parsed threshold values. -/
structure Config where
  esHost : String
  maxSize : String
  maxAge : String
  maxSizeBytes : Int
  maxAgeDuration : Int
  deriving DecidableEq, Repr

/-- Model of `Config.Validate`: host must be non-empty; a supplied size or
age string must parse (populating the computed field); at least one threshold
must be supplied.  `none` models a non-nil error.  The function is pure — no
network access exists in the source either. -/
def validate (c : Config) : Option Config :=
  if c.esHost = "" then none
  else
    match (if c.maxSize = "" then some c
           else (parseSize c.maxSize).map fun n => { c with maxSizeBytes := n }) with
    | none => none
    | some c1 =>
      match (if c1.maxAge = "" then some c1
             else (parseAge c1.maxAge).map fun d => { c1 with maxAgeDuration := d }) with
      | none => none
      | some c2 => if c2.maxSize = "" ∧ c2.maxAge = "" then none else some c2

/-! ## Display formatter (`pkg/utils/format.go`, `FormatBytes`)

`FormatBytes` prints `"%d B"` below 1 KiB and otherwise `"%.1f %cB"` with a
binary unit from `KMGTPE`.  The `%.1f` rendering of the exact quotient
`bytes/div` is `rheInt (10*bytes) div`, rounding half to even exactly as Go's
`strconv` fixed-precision formatting does on these dyadic quotients. -/

/-- Round-half-even of the fraction `p / q` (specified for `0 ≤ p`, `0 < q`),
computed with integer division. -/
def rheInt (p q : Int) : Int :=
  let f := p / q
  let r := p % q
  if 2 * r < q then f
  else if q < 2 * r then f + 1
  else if f % 2 = 0 then f else f + 1

/-- The divisor/exponent loop of `FormatBytes`
(`for n := bytes / unit; n >= unit; n /= unit { div *= unit; exp++ }`),
fuelled structurally; any `fuel > n` gives the loop's result. -/
def fbLoopCore : Nat → Nat → Int → Nat → Int × Nat
  | 0, _, div, exp => (div, exp)
  | fuel + 1, n, div, exp =>
    if 1024 ≤ n then fbLoopCore fuel (n / 1024) (div * 1024) (exp + 1)
    else (div, exp)

/-- The unit character `"KMGTPE"[exp]`. -/
def unitChar (e : Nat) : Char := (['K', 'M', 'G', 'T', 'P', 'E'].getD e '?')

/-- Digit string of the `%.1f` rendering whose rounded tenths value is
`n10` (non-negative): integer part `n10 / 10`, one fraction digit. -/
def decChars1 (n10 : Int) : List Char :=
  natToChars (n10.toNat / 10) ++ ['.', digitChar (n10.toNat % 10)]

/-- Model of `utils.FormatBytes`. -/
def formatBytes (bytes : Int) : String :=
  if bytes < 1024 then ⟨intToChars bytes ++ [' ', 'B']⟩
  else
    let n0 := (bytes / 1024).toNat
    let de := fbLoopCore (n0 + 1) n0 1024 0
    let n10 := rheInt (10 * bytes) de.1
    ⟨decChars1 n10 ++ [' ', unitChar de.2, 'B']⟩

/-- The divisor `FormatBytes` scales by (1 below 1 KiB). -/
def fbDiv (bytes : Int) : Int :=
  if bytes < 1024 then 1
  else
    let n0 := (bytes / 1024).toNat
    (fbLoopCore (n0 + 1) n0 1024 0).1

/-! ## Inventory records and the retention analysis
(`internal/elasticsearch/client.go`) -/

/-- Unix-epoch nanoseconds of Go's zero `time.Time` (January 1, year 1 UTC):
`-62135596800` seconds. -/
def goZeroNs : Int := -62135596800000000000

/-- Model of `IndexInfo`, restricted to the fields the analysis reads.
`creationDate` is `none` when enrichment never set the field — Go then holds
the zero `time.Time`, not a tri-state. -/
structure IndexInfo where
  name : String
  storeSize : String
  sizeBytes : Int
  creationDate : Option Int
  deriving DecidableEq, Repr

/-- The wall-clock value Go compares: an unset `CreationDate` reads as the
zero time. -/
def dateVal : Option Int → Int
  | none => goZeroNs
  | some t => t

/-- Model of `AnalysisResult`. -/
structure AnalysisResult where
  totalIndexes : Nat
  totalSize : Int
  toDelete : Nat
  deletedSize : Int
  deriving DecidableEq, Repr

/-- Insert a record into a list kept ascending by creation date, using the
comparator of `sort.Slice` (`CreationDate.Before`). -/
def insertByDate (x : IndexInfo) : List IndexInfo → List IndexInfo
  | [] => [x]
  | y :: ys =>
    if dateVal y.creationDate < dateVal x.creationDate then y :: insertByDate x ys
    else x :: y :: ys

/-- Model of the `sort.Slice` call of `AnalyzeIndexes` (insertion sort with
the same comparator; `sort.Slice` guarantees exactly an ordering by this
comparator). -/
def sortIndexes : List IndexInfo → List IndexInfo
  | [] => []
  | x :: xs => insertByDate x (sortIndexes xs)

/-- Total of `SizeBytes` over a record list. -/
def sumSizes (l : List IndexInfo) : Int := (l.map (·.sizeBytes)).sum

/-- Age pass of `AnalyzeIndexes`: append every record created strictly before
the cutoff, accumulating deleted size. -/
def agePassGo (cutoff : Int) : List IndexInfo → List IndexInfo → Int →
    List IndexInfo × Int
  | [], acc, ds => (acc, ds)
  | i :: is, acc, ds =>
    if dateVal i.creationDate < cutoff then
      agePassGo cutoff is (acc ++ [i]) (ds + i.sizeBytes)
    else agePassGo cutoff is acc ds

/-- The `alreadyMarked` scan of the size pass: some selected record has the
same name. -/
def markedIn (td : List IndexInfo) (i : IndexInfo) : Bool :=
  td.any fun d => d.name == i.name

/-- Size pass of `AnalyzeIndexes`: walk the sorted inventory, appending each
not-yet-marked record while the accumulated deleted size is below the
excess. -/
def sizePassGo (excess : Int) : List IndexInfo → List IndexInfo → Int →
    List IndexInfo × Int
  | [], acc, ds => (acc, ds)
  | i :: is, acc, ds =>
    if markedIn acc i = false ∧ ds < excess then
      sizePassGo excess is (acc ++ [i]) (ds + i.sizeBytes)
    else sizePassGo excess is acc ds

/-- Model of `Client.AnalyzeIndexes`.  `now` abstracts `time.Now()`; the
configuration supplies `MaxAgeDuration` and `MaxSizeBytes`. -/
def analyzeIndexes (cfg : Config) (now : Int) (indexes : List IndexInfo) :
    List IndexInfo × AnalysisResult :=
  let sorted := sortIndexes indexes
  let totalSize := sumSizes sorted
  let afterAge :=
    if 0 < cfg.maxAgeDuration then agePassGo (now - cfg.maxAgeDuration) sorted [] 0
    else ([], 0)
  let afterSize :=
    if 0 < cfg.maxSizeBytes ∧ cfg.maxSizeBytes < totalSize then
      sizePassGo (totalSize - cfg.maxSizeBytes) sorted afterAge.1 afterAge.2
    else afterAge
  (afterSize.1, ⟨sorted.length, totalSize, afterSize.1.length, afterSize.2⟩)

/-- Records the age pass selects (empty when the age rule is off). -/
def agePassList (cfg : Config) (now : Int) (indexes : List IndexInfo) :
    List IndexInfo :=
  if 0 < cfg.maxAgeDuration then
    (sortIndexes indexes).filter fun i =>
      decide (dateVal i.creationDate < now - cfg.maxAgeDuration)
  else []

/-- Deleted size accumulated by the age pass alone (zero when the age rule is
off). -/
def agePassSize (cfg : Config) (now : Int) (indexes : List IndexInfo) : Int :=
  sumSizes (agePassList cfg now indexes)

/-- Largest `sizeBytes` in the inventory (zero for an empty one). -/
def maxSizeOf (l : List IndexInfo) : Int :=
  l.foldr (fun i m => max i.sizeBytes m) 0

/-! ## Concrete fixtures used by the claim theorems -/

/-- Configuration with only an age limit of one second. -/
def cexCfgAge : Config := ⟨"http://es:9200", "", "1s", 0, 1000000000⟩

/-- A record whose creation time enrichment never resolved. -/
def cexUnresolved : IndexInfo := ⟨"logs-unresolved", "", 5, none⟩

/-- A record with a resolved, recent creation time. -/
def cexResolved : IndexInfo := ⟨"logs-a", "", 7, some 1700000000000000000⟩

/-- Policy of the spec's worked example: `ageCutoff = 7d`, `sizeCap = 5MB`. -/
def cfg3 : Config := ⟨"http://es:9200", "5MB", "7d", 5242880, 604800000000000⟩

/-- Inventory of the spec's worked example, with creation times relative to
`now`: A is 10 days old / 2 MB, B is 2 days old / 1 MB, C is 1 day old /
4 MB. -/
def idx3 (now : Int) : List IndexInfo :=
  [⟨"A", "", 2097152, some (now - 864000000000000)⟩,
   ⟨"B", "", 1048576, some (now - 172800000000000)⟩,
   ⟨"C", "", 4194304, some (now - 86400000000000)⟩]

/-- Policy whose age pass alone overshoots the size excess: 10-second age
cutoff, 19-byte size cap. -/
def cfg5 : Config := ⟨"http://es:9200", "19B", "10s", 19, 10000000000⟩

/-- Two 10-byte records, both far older than `cfg5`'s cutoff at `now = 0`. -/
def idx5 : List IndexInfo :=
  [⟨"x", "", 10, some (-100000000000)⟩, ⟨"y", "", 10, some (-50000000000)⟩]

/-- Policy with a 10-second age cutoff and a 2-byte size cap. -/
def cfgW : Config := ⟨"http://es:9200", "2B", "10s", 2, 10000000000⟩

/-- One old 2-byte record and one new 3-byte record. -/
def idxW : List IndexInfo :=
  [⟨"old", "", 2, some (-100000000000)⟩, ⟨"new", "", 3, some 50000000000⟩]

/-- Configuration with an empty host (and no thresholds). -/
def cfgBad : Config := ⟨"", "", "", 0, 0⟩

/-! ## Lemmas about the retention engine -/

/-- Ordering key compared by the engine's sort. -/
def dateLe (a b : IndexInfo) : Prop :=
  dateVal a.creationDate ≤ dateVal b.creationDate

theorem insertByDate_perm (x : IndexInfo) (l : List IndexInfo) :
    (insertByDate x l).Perm (x :: l) := by
  induction l with
  | nil => simp [insertByDate]
  | cons y ys ih =>
    by_cases h : dateVal y.creationDate < dateVal x.creationDate
    · simp only [insertByDate, if_pos h]
      exact ((ih.cons y).trans (List.Perm.swap x y ys))
    · simp [insertByDate, if_neg h]

theorem sortIndexes_perm (l : List IndexInfo) : (sortIndexes l).Perm l := by
  induction l with
  | nil => simp [sortIndexes]
  | cons x xs ih =>
    exact (insertByDate_perm x (sortIndexes xs)).trans (ih.cons x)

theorem insertByDate_pairwise (x : IndexInfo) (l : List IndexInfo)
    (h : l.Pairwise dateLe) : (insertByDate x l).Pairwise dateLe := by
  induction l with
  | nil => simp [insertByDate, dateLe]
  | cons y ys ih =>
    rw [List.pairwise_cons] at h
    by_cases hc : dateVal y.creationDate < dateVal x.creationDate
    · simp only [insertByDate, if_pos hc]
      rw [List.pairwise_cons]
      refine ⟨?_, ih h.2⟩
      intro b hb
      rcases List.mem_cons.mp ((insertByDate_perm x ys).mem_iff.mp hb) with hb1 | hb1
      · subst hb1; exact le_of_lt hc
      · exact h.1 b hb1
    · simp only [insertByDate, if_neg hc]
      rw [List.pairwise_cons]
      push_neg at hc
      refine ⟨?_, List.pairwise_cons.mpr h⟩
      intro b hb
      rcases List.mem_cons.mp hb with hb1 | hb1
      · subst hb1; exact hc
      · exact le_trans hc (h.1 b hb1)

theorem sortIndexes_sorted (l : List IndexInfo) :
    (sortIndexes l).Pairwise dateLe := by
  induction l with
  | nil => simp [sortIndexes]
  | cons x xs ih => exact insertByDate_pairwise x (sortIndexes xs) ih

theorem sortIndexes_eq_self (l : List IndexInfo) (h : l.Pairwise dateLe) :
    sortIndexes l = l := by
  induction l with
  | nil => rfl
  | cons x xs ih =>
    rw [List.pairwise_cons] at h
    have hxs : sortIndexes xs = xs := ih h.2
    rw [sortIndexes, hxs]
    cases xs with
    | nil => rfl
    | cons y ys =>
      have : ¬ dateVal y.creationDate < dateVal x.creationDate :=
        not_lt.mpr (h.1 y (by simp))
      simp [insertByDate, this]

theorem sumSizes_append (l₁ l₂ : List IndexInfo) :
    sumSizes (l₁ ++ l₂) = sumSizes l₁ + sumSizes l₂ := by
  simp [sumSizes]

theorem sumSizes_perm {l₁ l₂ : List IndexInfo} (h : l₁.Perm l₂) :
    sumSizes l₁ = sumSizes l₂ :=
  List.Perm.sum_eq (h.map (·.sizeBytes))

theorem agePassGo_spec (cutoff : Int) (l acc : List IndexInfo) (ds : Int) :
    agePassGo cutoff l acc ds =
      (acc ++ l.filter (fun i => decide (dateVal i.creationDate < cutoff)),
       ds + sumSizes (l.filter (fun i => decide (dateVal i.creationDate < cutoff)))) := by
  induction l generalizing acc ds with
  | nil => simp [agePassGo, sumSizes]
  | cons i is ih =>
    by_cases h : dateVal i.creationDate < cutoff
    · rw [agePassGo, if_pos h, ih]
      simp only [Prod.mk.injEq, List.filter_cons, h, decide_True, if_true]
      refine ⟨by simp, ?_⟩
      simp only [sumSizes, List.map_cons, List.sum_cons]
      ring
    · rw [agePassGo, if_neg h, ih]
      simp [List.filter_cons, h]

theorem sizePassGo_decomp (e : Int) (l acc : List IndexInfo) (ds : Int) :
    ∃ ex, (sizePassGo e l acc ds).1 = acc ++ ex ∧ ex.Sublist l := by
  induction l generalizing acc ds with
  | nil => exact ⟨[], by simp [sizePassGo]⟩
  | cons i is ih =>
    by_cases h : markedIn acc i = false ∧ ds < e
    · rw [sizePassGo, if_pos h]
      obtain ⟨ex, hex, hsub⟩ := ih (acc ++ [i]) (ds + i.sizeBytes)
      exact ⟨i :: ex, by simpa using hex, hsub.cons₂ i⟩
    · rw [sizePassGo, if_neg h]
      obtain ⟨ex, hex, hsub⟩ := ih acc ds
      exact ⟨ex, hex, hsub.cons i⟩

theorem sizePassGo_sum (e : Int) (l : List IndexInfo) :
    ∀ acc ds, ds = sumSizes acc →
      (sizePassGo e l acc ds).2 = sumSizes (sizePassGo e l acc ds).1 := by
  induction l with
  | nil => intro acc ds h; simpa [sizePassGo] using h
  | cons i is ih =>
    intro acc ds h
    by_cases hc : markedIn acc i = false ∧ ds < e
    · rw [sizePassGo, if_pos hc]
      exact ih (acc ++ [i]) (ds + i.sizeBytes) (by simp [sumSizes_append, h, sumSizes])
    · rw [sizePassGo, if_neg hc]
      exact ih acc ds h

theorem sizePassGo_skip (e : Int) (pre : List IndexInfo) :
    ∀ l acc ds, (∀ i ∈ pre, ∃ d ∈ acc, d.name = i.name) →
      sizePassGo e (pre ++ l) acc ds = sizePassGo e l acc ds := by
  induction pre with
  | nil => intro l acc ds _; rfl
  | cons i is ih =>
    intro l acc ds h
    obtain ⟨d, hd, hdn⟩ := h i (by simp)
    have hm : markedIn acc i = true := by
      simp only [markedIn, List.any_eq_true]
      exact ⟨d, hd, by simp [hdn]⟩
    rw [List.cons_append, sizePassGo, if_neg (by simp [hm])]
    exact ih l acc ds (fun j hj => h j (by simp [hj]))

theorem sizePassGo_nodup (e : Int) (l : List IndexInfo) :
    ∀ acc ds, ((acc ++ l).map (·.name)).Nodup →
      (((sizePassGo e l acc ds).1.map (·.name)).Nodup) := by
  induction l with
  | nil => intro acc ds h; simpa [sizePassGo] using h
  | cons i is ih =>
    intro acc ds h
    by_cases hc : markedIn acc i = false ∧ ds < e
    · rw [sizePassGo, if_pos hc]
      exact ih (acc ++ [i]) (ds + i.sizeBytes) (by simpa using h)
    · rw [sizePassGo, if_neg hc]
      refine ih acc ds ?_
      have hsub : (acc ++ is).Sublist (acc ++ i :: is) :=
        (List.sublist_cons_self i is).append_left acc
      exact (hsub.map (·.name)).nodup h

theorem sizePassGo_bound (e M : Int) (l : List IndexInfo) :
    ∀ acc ds, (∀ i ∈ l, i.sizeBytes ≤ M) → ds ≤ e + M →
      (sizePassGo e l acc ds).2 ≤ e + M := by
  induction l with
  | nil => intro acc ds _ h; simpa [sizePassGo] using h
  | cons i is ih =>
    intro acc ds hM h
    by_cases hc : markedIn acc i = false ∧ ds < e
    · rw [sizePassGo, if_pos hc]
      refine ih (acc ++ [i]) (ds + i.sizeBytes) (fun j hj => hM j (by simp [hj])) ?_
      have : i.sizeBytes ≤ M := hM i (by simp)
      omega
    · rw [sizePassGo, if_neg hc]
      exact ih acc ds (fun j hj => hM j (by simp [hj])) h

theorem filter_eq_takeWhile_sorted (c : Int) (l : List IndexInfo)
    (h : l.Pairwise dateLe) :
    l.filter (fun i => decide (dateVal i.creationDate < c)) =
      l.takeWhile (fun i => decide (dateVal i.creationDate < c)) := by
  induction l with
  | nil => rfl
  | cons i is ih =>
    rw [List.pairwise_cons] at h
    by_cases hc : dateVal i.creationDate < c
    · simp [List.filter_cons, List.takeWhile_cons, hc, ih h.2]
    · have hall : ∀ j ∈ is, ¬ dateVal j.creationDate < c := by
        intro j hj
        have := h.1 j hj
        unfold dateLe at this
        omega
      have hfil : is.filter (fun i => decide (dateVal i.creationDate < c)) = [] :=
        List.filter_eq_nil_iff.mpr (by intro j hj; simpa using hall j hj)
      simp [List.filter_cons, List.takeWhile_cons, hc, hfil]

theorem maxSizeOf_nonneg (l : List IndexInfo) : 0 ≤ maxSizeOf l := by
  induction l with
  | nil => simp [maxSizeOf]
  | cons i is ih =>
    simp only [maxSizeOf, List.foldr_cons] at *
    exact le_trans ih (le_max_right _ _)

theorem sizeBytes_le_maxSizeOf {i : IndexInfo} {l : List IndexInfo} (h : i ∈ l) :
    i.sizeBytes ≤ maxSizeOf l := by
  induction l with
  | nil => cases h
  | cons j js ih =>
    simp only [maxSizeOf, List.foldr_cons]
    rcases List.mem_cons.mp h with h1 | h1
    · subst h1; exact le_max_left _ _
    · exact le_trans (ih h1) (le_max_right _ _)

theorem analyzeIndexes_split (cfg : Config) (now : Int) (idx : List IndexInfo) :
    ∃ ex, (analyzeIndexes cfg now idx).1 = agePassList cfg now idx ++ ex ∧
      ex.Sublist (sortIndexes idx) := by
  simp only [analyzeIndexes, agePassList]
  by_cases hA : 0 < cfg.maxAgeDuration
  · simp only [if_pos hA, agePassGo_spec, List.nil_append, zero_add]
    by_cases hS : 0 < cfg.maxSizeBytes ∧ cfg.maxSizeBytes < sumSizes (sortIndexes idx)
    · simp only [if_pos hS]
      exact sizePassGo_decomp _ _ _ _
    · simp only [if_neg hS]
      exact ⟨[], by simp⟩
  · simp only [if_neg hA]
    by_cases hS : 0 < cfg.maxSizeBytes ∧ cfg.maxSizeBytes < sumSizes (sortIndexes idx)
    · simp only [if_pos hS]
      obtain ⟨ex, h1, h2⟩ := sizePassGo_decomp (sumSizes (sortIndexes idx) - cfg.maxSizeBytes)
        (sortIndexes idx) [] 0
      exact ⟨ex, by simpa using h1, h2⟩
    · simp only [if_neg hS]
      exact ⟨[], by simp⟩

/-! ## Claim theorems -/

/-- C1 (counterexample): with a one-second age cutoff at `now = 0`, a record
whose creation time is unresolved IS selected by the age pass — its Go
zero-value creation date compares before the cutoff — refuting the claim that
such a record is never age-deleted. -/
theorem c1_counterexample :
    cexUnresolved.creationDate = none ∧
    0 < cexCfgAge.maxAgeDuration ∧
    (analyzeIndexes cexCfgAge 0 [cexUnresolved]).1 = [cexUnresolved] := by
  decide

/-- C1 (amended): a record with an unresolved creation time is ALWAYS placed
in the delete set by the age pass whenever the age rule is active and the
cutoff lies after Go's zero time (every realistic cutoff), because the unset
`CreationDate` reads as the zero time and so compares as infinitely old.  It
also remains in the list the size pass extends. -/
theorem c1_amended (cfg : Config) (now : Int) (idx : List IndexInfo)
    (r : IndexInfo) (hr : r ∈ idx) (hd : r.creationDate = none)
    (hage : 0 < cfg.maxAgeDuration)
    (hcut : goZeroNs < now - cfg.maxAgeDuration) :
    r ∈ (analyzeIndexes cfg now idx).1 := by
  obtain ⟨ex, he, -⟩ := analyzeIndexes_split cfg now idx
  rw [he]
  apply List.mem_append_left
  rw [agePassList, if_pos hage]
  refine List.mem_filter.mpr ⟨(sortIndexes_perm idx).mem_iff.mpr hr, ?_⟩
  simp only [hd, dateVal, decide_eq_true_eq]
  exact hcut

/-- C1 (witness): the amended theorem applied to the concrete unresolved
record and one-second cutoff. -/
theorem c1_witness :
    cexUnresolved ∈ (analyzeIndexes cexCfgAge 0 [cexUnresolved]).1 :=
  c1_amended cexCfgAge 0 [cexUnresolved] cexUnresolved (by decide) (by decide)
    (by decide) (by decide)

/-- C2 (counterexample): sorting a resolved record together with an
unresolved one places the unresolved record FIRST, not last — the Go zero
time sorts before every modern timestamp. -/
theorem c2_counterexample :
    sortIndexes [cexResolved, cexUnresolved] = [cexUnresolved, cexResolved] ∧
    cexUnresolved.creationDate = none ∧ ¬ cexResolved.creationDate = none := by
  decide

/-- C2 (amended): the engine's initial sort orders records ascending by the
effective creation value (unresolved records carrying Go's zero time), so a
record following an unresolved one can itself only carry a value at most the
zero time: unresolved records sort before, not after, all records whose
resolved time exceeds the zero time. -/
theorem c2_amended (idx : List IndexInfo) :
    (sortIndexes idx).Pairwise dateLe ∧
    (sortIndexes idx).Pairwise (fun a b => b.creationDate = none →
      dateVal a.creationDate ≤ goZeroNs) := by
  refine ⟨sortIndexes_sorted idx, (sortIndexes_sorted idx).imp ?_⟩
  intro a b hab hb
  unfold dateLe at hab
  rw [hb] at hab
  exact hab

/-- C3: on the spec's worked example (A: 10 days / 2 MB, B: 2 days / 1 MB,
C: 1 day / 4 MB; cutoff 7 days, cap 5 MB), for every `now` the analysis
returns exactly `toDelete = [A]` with total size 7 MB and deleted size 2 MB:
the age pass selects A and the size pass adds nothing because A's 2 MB
already meets the 2 MB excess. -/
theorem c3_example (now : Int) :
    analyzeIndexes cfg3 now (idx3 now) =
      ([⟨"A", "", 2097152, some (now - 864000000000000)⟩],
       ⟨3, 7340032, 1, 2097152⟩) := by
  have hss : sortIndexes (idx3 now) = idx3 now := by
    have g1 : ¬ now - 86400000000000 < now - 172800000000000 := by omega
    have g2 : ¬ now - 172800000000000 < now - 864000000000000 := by omega
    simp [idx3, sortIndexes, insertByDate, dateVal, g1, g2]
  have h1 : now - 864000000000000 < now - 604800000000000 := by omega
  have h2 : ¬ now - 172800000000000 < now - 604800000000000 := by omega
  have h3 : ¬ now - 86400000000000 < now - 604800000000000 := by omega
  simp only [analyzeIndexes, hss]
  norm_num [cfg3, idx3, sumSizes, agePassGo, sizePassGo, markedIn, dateVal,
    h1, h2, h3]

/-- C4: for every inventory and policy, the reported `deletedSizeBytes`
equals the sum of the sizes of exactly the returned `toDelete` records. -/
theorem c4_deletedSize (cfg : Config) (now : Int) (idx : List IndexInfo) :
    (analyzeIndexes cfg now idx).2.deletedSize =
      sumSizes (analyzeIndexes cfg now idx).1 := by
  simp only [analyzeIndexes]
  by_cases hA : 0 < cfg.maxAgeDuration
  · simp only [if_pos hA, agePassGo_spec, List.nil_append, zero_add]
    by_cases hS : 0 < cfg.maxSizeBytes ∧ cfg.maxSizeBytes < sumSizes (sortIndexes idx)
    · simp only [if_pos hS]
      exact sizePassGo_sum _ _ _ _ rfl
    · simp only [if_neg hS]
  · simp only [if_neg hA]
    by_cases hS : 0 < cfg.maxSizeBytes ∧ cfg.maxSizeBytes < sumSizes (sortIndexes idx)
    · simp only [if_pos hS]
      exact sizePassGo_sum _ _ _ _ (by simp [sumSizes])
    · simp only [if_neg hS]
      simp [sumSizes]

/-- C5 (counterexample): with two 10-byte records both selected by the age
pass, a 19-byte cap and a 20-byte total, the size pass fires with excess 1
but the final deleted size 20 exceeds the excess by 19 — more than any single
record's size — refuting the claimed overshoot bound. -/
theorem c5_counterexample :
    0 < cfg5.maxSizeBytes ∧ cfg5.maxSizeBytes < sumSizes idx5 ∧
    (analyzeIndexes cfg5 0 idx5).2.deletedSize -
      (sumSizes idx5 - cfg5.maxSizeBytes) = 19 ∧
    ∀ r ∈ idx5, r.sizeBytes < 19 := by
  decide

/-- C5 (amended): when the size pass fires AND the age pass's accumulated
deleted size does not already exceed the excess, the final deleted size
overshoots the excess by at most one record's size (the largest in the
inventory); if the age pass alone overshoots, the bound is its total
instead. -/
theorem c5_amended (cfg : Config) (now : Int) (idx : List IndexInfo)
    (h1 : 0 < cfg.maxSizeBytes) (h2 : cfg.maxSizeBytes < sumSizes idx)
    (h3 : agePassSize cfg now idx ≤ sumSizes idx - cfg.maxSizeBytes) :
    (analyzeIndexes cfg now idx).2.deletedSize ≤
      (sumSizes idx - cfg.maxSizeBytes) + maxSizeOf idx := by
  have hperm := sortIndexes_perm idx
  have hsum : sumSizes (sortIndexes idx) = sumSizes idx := sumSizes_perm hperm
  have hMn : 0 ≤ maxSizeOf idx := maxSizeOf_nonneg idx
  have hM : ∀ i ∈ sortIndexes idx, i.sizeBytes ≤ maxSizeOf idx := fun i hi =>
    sizeBytes_le_maxSizeOf (hperm.mem_iff.mp hi)
  have hS : 0 < cfg.maxSizeBytes ∧ cfg.maxSizeBytes < sumSizes (sortIndexes idx) :=
    ⟨h1, by omega⟩
  simp only [analyzeIndexes, if_pos hS]
  by_cases hA : 0 < cfg.maxAgeDuration
  · simp only [if_pos hA, agePassGo_spec, List.nil_append, zero_add]
    have h3' : sumSizes ((sortIndexes idx).filter fun i =>
        decide (dateVal i.creationDate < now - cfg.maxAgeDuration)) ≤
        sumSizes idx - cfg.maxSizeBytes := by
      have : agePassSize cfg now idx = sumSizes ((sortIndexes idx).filter fun i =>
          decide (dateVal i.creationDate < now - cfg.maxAgeDuration)) := by
        rw [agePassSize, agePassList, if_pos hA]
      omega
    have := sizePassGo_bound (sumSizes (sortIndexes idx) - cfg.maxSizeBytes)
      (maxSizeOf idx) (sortIndexes idx)
      ((sortIndexes idx).filter fun i =>
        decide (dateVal i.creationDate < now - cfg.maxAgeDuration))
      (sumSizes ((sortIndexes idx).filter fun i =>
        decide (dateVal i.creationDate < now - cfg.maxAgeDuration)))
      hM (by omega)
    omega
  · simp only [if_neg hA]
    have := sizePassGo_bound (sumSizes (sortIndexes idx) - cfg.maxSizeBytes)
      (maxSizeOf idx) (sortIndexes idx) [] 0 hM (by omega)
    omega

/-- C5 (witness): the amended bound applied to a concrete inventory where
the age pass removes 2 of the 3 excess bytes and the size pass one more
record. -/
theorem c5_witness :
    (analyzeIndexes cfgW 0 idxW).2.deletedSize ≤
      (sumSizes idxW - cfgW.maxSizeBytes) + maxSizeOf idxW :=
  c5_amended cfgW 0 idxW (by decide) (by decide) (by decide)

theorem sizePass_sorted_main (e ds : Int) (s : List IndexInfo)
    (p : IndexInfo → Bool) (htw : s.filter p = s.takeWhile p)
    (hnames : (s.map (fun x => x.name)).Nodup) :
    ((sizePassGo e s (s.filter p) ds).1.map (fun x => x.name)).Nodup ∧
    (sizePassGo e s (s.filter p) ds).1.Sublist s := by
  obtain ⟨a, ha⟩ : ∃ a, s.takeWhile p = a := ⟨_, rfl⟩
  obtain ⟨b, hb⟩ : ∃ b, s.dropWhile p = b := ⟨_, rfl⟩
  have hs : s = a ++ b := by rw [← ha, ← hb, List.takeWhile_append_dropWhile]
  rw [htw, ha, hs]
  rw [sizePassGo_skip e a b a ds (fun i hi => ⟨i, hi, rfl⟩)]
  constructor
  · exact sizePassGo_nodup e b a ds (hs ▸ hnames)
  · obtain ⟨ex, hex, hsub⟩ := sizePassGo_decomp e b a ds
    rw [hex]
    exact List.Sublist.append (List.Sublist.refl a) hsub

/-- C6: for every inventory whose names are unique (the data model's
snapshot invariant), no name appears twice in `toDelete` — a record
qualifying under both rules appears once — and `toDelete` is a subsequence
of the oldest-first sorted inventory, so it preserves that order. -/
theorem c6_nodup_order (cfg : Config) (now : Int) (idx : List IndexInfo)
    (h : (idx.map (fun x => x.name)).Nodup) :
    ((analyzeIndexes cfg now idx).1.map (fun x => x.name)).Nodup ∧
    (analyzeIndexes cfg now idx).1.Sublist (sortIndexes idx) := by
  have hperm := sortIndexes_perm idx
  have hnames : ((sortIndexes idx).map (fun x => x.name)).Nodup :=
    ((hperm.map (fun x => x.name)).nodup_iff).mpr h
  simp only [analyzeIndexes]
  by_cases hA : 0 < cfg.maxAgeDuration
  · simp only [if_pos hA, agePassGo_spec, List.nil_append, zero_add]
    have htw : (sortIndexes idx).filter
        (fun i => decide (dateVal i.creationDate < now - cfg.maxAgeDuration)) =
        (sortIndexes idx).takeWhile
        (fun i => decide (dateVal i.creationDate < now - cfg.maxAgeDuration)) :=
      filter_eq_takeWhile_sorted _ _ (sortIndexes_sorted idx)
    by_cases hS : 0 < cfg.maxSizeBytes ∧ cfg.maxSizeBytes < sumSizes (sortIndexes idx)
    · simp only [if_pos hS]
      exact sizePass_sorted_main _ _ _ _ htw hnames
    · simp only [if_neg hS]
      exact ⟨List.Nodup.sublist
          (List.Sublist.map (fun x : IndexInfo => x.name) (List.filter_sublist _))
          hnames,
        List.filter_sublist _⟩
  · simp only [if_neg hA]
    by_cases hS : 0 < cfg.maxSizeBytes ∧ cfg.maxSizeBytes < sumSizes (sortIndexes idx)
    · simp only [if_pos hS]
      constructor
      · exact sizePassGo_nodup _ _ _ _ (by simpa using hnames)
      · obtain ⟨ex, hex, hsub⟩ := sizePassGo_decomp
          (sumSizes (sortIndexes idx) - cfg.maxSizeBytes) (sortIndexes idx) [] 0
        rw [hex]
        simpa using hsub
    · simp only [if_neg hS]
      exact ⟨by simp, List.nil_sublist _⟩

/-- C6 (witness): the dedup/order theorem applied to the worked example's
inventory, whose three names are distinct. -/
theorem c6_witness :
    ((analyzeIndexes cfg3 0 (idx3 0)).1.map (fun x => x.name)).Nodup ∧
    (analyzeIndexes cfg3 0 (idx3 0)).1.Sublist (sortIndexes (idx3 0)) :=
  c6_nodup_order cfg3 0 (idx3 0) (by decide)

/-- C7: validation fails exactly when the host is empty, a supplied size
string fails to parse, a supplied age string fails to parse, or neither
threshold is supplied; on success the parsed byte and duration fields hold
the parsers' values.  The model is a pure function — the source performs no
network call here either. -/
theorem c7_validate (c : Config) :
    (validate c = none ↔
      c.esHost = "" ∨ (c.maxSize ≠ "" ∧ parseSize c.maxSize = none) ∨
      (c.maxAge ≠ "" ∧ parseAge c.maxAge = none) ∨
      (c.maxSize = "" ∧ c.maxAge = "")) ∧
    (∀ c', validate c = some c' →
      (c.maxSize ≠ "" → parseSize c.maxSize = some c'.maxSizeBytes) ∧
      (c.maxAge ≠ "" → parseAge c.maxAge = some c'.maxAgeDuration)) := by
  by_cases h0 : c.esHost = ""
  · simp [validate, h0]
  · by_cases h1 : c.maxSize = ""
    · by_cases h2 : c.maxAge = ""
      · simp [validate, h0, h1, h2]
      · cases hA : parseAge c.maxAge with
        | none => simp [validate, h0, h1, h2, hA]
        | some d => simp [validate, h0, h1, h2, hA]
    · cases hS : parseSize c.maxSize with
      | none => simp [validate, h0, h1, hS]
      | some n =>
        by_cases h2 : c.maxAge = ""
        · simp [validate, h0, h1, h2, hS]
        · cases hA : parseAge c.maxAge with
          | none => simp [validate, h0, h1, h2, hS, hA]
          | some d => simp [validate, h0, h1, h2, hS, hA]

/-- C7 (witness): validation of the empty-host configuration fails, via the
characterisation's backward direction. -/
theorem c7_witness : validate cfgBad = none :=
  (c7_validate cfgBad).1.mpr (Or.inl rfl)

/-- C8: the duration parser rejects `"1.5d"` (integer counts only) while the
size parser accepts `"1.5GB"` as `⌊1.5 · 2^30⌋` bytes — the implemented
parsers are asymmetric about fractions exactly as the spec states. -/
theorem c8_fraction_asymmetry :
    parseAge "1.5d" = none ∧ parseSize "1.5GB" = some 1610612736 := by
  decide

/-- C10: the enrichment-side size parser maps the empty string to `0` with
no error, so a record with an absent or empty store-size field silently
enters classification with `sizeBytes = 0`. -/
theorem c10_empty_size :
    parseESSize "" = some 0 ∧ enrichSizeBytes "" = 0 := by
  decide

/-! ## Decimal-rendering round-trip lemmas (towards C9) -/

theorem digitChar_toNat {n : Nat} (h : n < 10) : (digitChar n).toNat = 48 + n := by
  interval_cases n <;> rfl

theorem isDigitChar_digitChar {n : Nat} (h : n < 10) :
    isDigitChar (digitChar n) = true := by
  interval_cases n <;> decide

theorem digitsToNat_append_singleton (xs : List Char) (c : Char) :
    digitsToNat (xs ++ [c]) = digitsToNat xs * 10 + (c.toNat - 48) := by
  simp [digitsToNat, List.foldl_append]

theorem toDecCore_spec (fuel : Nat) : ∀ n, n < fuel →
    digitsToNat (toDecCore fuel n) = n ∧ toDecCore fuel n ≠ [] ∧
    ∀ c ∈ toDecCore fuel n, isDigitChar c = true := by
  induction fuel with
  | zero => intro n h; omega
  | succ f ih =>
    intro n h
    rw [toDecCore]
    by_cases h10 : n < 10
    · rw [if_pos h10]
      refine ⟨?_, by simp, ?_⟩
      · simp [digitsToNat, digitChar_toNat h10]
      · intro c hc
        rw [List.mem_singleton] at hc
        subst hc
        exact isDigitChar_digitChar h10
    · rw [if_neg h10]
      have hd : n / 10 < n := Nat.div_lt_self (by omega) (by omega)
      obtain ⟨ih1, ih2, ih3⟩ := ih (n / 10) (by omega)
      refine ⟨?_, by simp, ?_⟩
      · rw [digitsToNat_append_singleton, ih1, digitChar_toNat (Nat.mod_lt n (by omega))]
        omega
      · intro c hc
        rcases List.mem_append.mp hc with hc1 | hc1
        · exact ih3 c hc1
        · rw [List.mem_singleton] at hc1
          subst hc1
          exact isDigitChar_digitChar (Nat.mod_lt n (by omega))

theorem natToChars_spec (n : Nat) :
    digitsToNat (natToChars n) = n ∧ natToChars n ≠ [] ∧
    ∀ c ∈ natToChars n, isDigitChar c = true :=
  toDecCore_spec (n + 1) n (by omega)

theorem takeWhile_append_cons {p : Char → Bool} (l : List Char) (a : Char)
    (r : List Char) (hl : ∀ c ∈ l, p c = true) (ha : p a = false) :
    (l ++ a :: r).takeWhile p = l ∧ (l ++ a :: r).dropWhile p = a :: r := by
  induction l with
  | nil => simp [List.takeWhile_cons, List.dropWhile_cons, ha]
  | cons x xs ih =>
    have hx : p x = true := hl x (by simp)
    have := ih (fun c hc => hl c (by simp [hc]))
    simp only [List.cons_append, List.takeWhile_cons, List.dropWhile_cons, hx,
      if_true, this.1, this.2]
    simp

theorem toUpperChar_eq_self {c : Char} (h : c.toNat < 97) : toUpperChar c = c := by
  unfold toUpperChar
  rw [if_neg]
  simp only [Bool.and_eq_true, decide_eq_true_eq, not_and]
  omega

theorem isDigitChar_lt97 {c : Char} (h : isDigitChar c = true) : c.toNat < 97 := by
  simp only [isDigitChar, Bool.and_eq_true, decide_eq_true_eq] at h
  omega

theorem map_toUpperChar_id (l : List Char) (h : ∀ c ∈ l, c.toNat < 97) :
    l.map toUpperChar = l := by
  induction l with
  | nil => rfl
  | cons x xs ih =>
    rw [List.map_cons, toUpperChar_eq_self (h x (by simp)),
      ih (fun c hc => h c (by simp [hc]))]

theorem isEmpty_false_of_ne_nil {l : List Char} (h : l ≠ []) :
    l.isEmpty = false := by
  cases l with
  | nil => exact absurd rfl h
  | cons a t => rfl

theorem matchNumber_plain (ds : List Char) (a : Char) (r : List Char)
    (hd : ds ≠ []) (hdig : ∀ c ∈ ds, isDigitChar c = true)
    (ha : isDigitChar a = false) (hadot : ¬ a = '.') :
    matchNumber (ds ++ a :: r) = some (ds, [], a :: r) := by
  obtain ⟨htw, hdw⟩ := takeWhile_append_cons (p := isDigitChar) ds a r hdig ha
  rw [matchNumber]
  rw [htw, hdw, isEmpty_false_of_ne_nil hd]
  dsimp only
  rw [if_neg hadot]
  simp

theorem matchNumber_onedec (ds fs : List Char) (a : Char) (r : List Char)
    (hd : ds ≠ []) (hdig : ∀ c ∈ ds, isDigitChar c = true)
    (hf : fs ≠ []) (hfdig : ∀ c ∈ fs, isDigitChar c = true)
    (ha : isDigitChar a = false) :
    matchNumber (ds ++ '.' :: (fs ++ a :: r)) = some (ds, fs, a :: r) := by
  obtain ⟨htw, hdw⟩ := takeWhile_append_cons (p := isDigitChar) ds '.'
    (fs ++ a :: r) hdig (by decide)
  obtain ⟨htw2, hdw2⟩ := takeWhile_append_cons (p := isDigitChar) fs a r hfdig ha
  rw [matchNumber]
  rw [htw, hdw, isEmpty_false_of_ne_nil hd]
  dsimp only
  rw [if_pos rfl, htw2, hdw2, isEmpty_false_of_ne_nil hf]
  simp

theorem parseSizeCore_plain (ds : List Char) (hd : ds ≠ [])
    (hdig : ∀ c ∈ ds, isDigitChar c = true) :
    parseSizeCore (ds ++ [' ', 'B']) = some (digitsToNat ds : Int) := by
  rw [parseSizeCore, matchNumber_plain ds ' ' ['B'] hd hdig (by decide) (by decide)]
  have hu : sizeUnitMult (List.dropWhile isSpaceChar [' ', 'B']) = some 1 := by decide
  dsimp only
  rw [hu]
  simp [digitsToNat]

theorem parseSizeCore_onedec (ds : List Char) (dd : Nat) (uc : Char) (m : Int)
    (hd : ds ≠ []) (hdig : ∀ c ∈ ds, isDigitChar c = true) (hdd : dd < 10)
    (hus : isSpaceChar uc = false)
    (hu : sizeUnitMult [uc, 'B'] = some m) :
    parseSizeCore (ds ++ ['.', digitChar dd, ' ', uc, 'B']) =
      some (((digitsToNat ds : Int) * m * 10 + (dd : Int) * m) / 10) := by
  have hshape : (ds ++ ['.', digitChar dd, ' ', uc, 'B']) =
      ds ++ '.' :: ([digitChar dd] ++ ' ' :: [uc, 'B']) := by simp
  rw [parseSizeCore, hshape,
    matchNumber_onedec ds [digitChar dd] ' ' [uc, 'B'] hd hdig (by simp)
      (by intro c hc
          rw [List.mem_singleton] at hc
          subst hc
          exact isDigitChar_digitChar hdd)
      (by decide)]
  have hdrop : List.dropWhile isSpaceChar (' ' :: [uc, 'B']) = [uc, 'B'] := by
    rw [List.dropWhile_cons]
    rw [show isSpaceChar ' ' = true from by decide]
    simp only [if_true, List.dropWhile_cons, hus]
    rw [if_neg (by simp)]
  dsimp only
  rw [hdrop, hu]
  simp [digitsToNat, digitChar_toNat hdd]

theorem unitChar_facts (j : Nat) (hj : j ≤ 3) :
    (unitChar j).toNat < 97 ∧ isSpaceChar (unitChar j) = false ∧
    sizeUnitMult [unitChar j, 'B'] = some ((1024 : Int) ^ (j + 1)) := by
  interval_cases j <;> refine ⟨by decide, by decide, ?_⟩ <;> decide

theorem fbLoopCore_spec (fuel : Nat) : ∀ n div exp, n < fuel →
    ∃ j, fbLoopCore fuel n div exp = (div * 1024 ^ j, exp + j) ∧
      n < 1024 ^ (j + 1) ∧ (j = 0 ∨ 1024 ^ j ≤ n) := by
  induction fuel with
  | zero => intro n div exp h; omega
  | succ f ih =>
    intro n div exp h
    rw [fbLoopCore]
    by_cases h1 : 1024 ≤ n
    · rw [if_pos h1]
      have hd : n / 1024 < n := Nat.div_lt_self (by omega) (by omega)
      obtain ⟨j, hj1, hj2, hj3⟩ := ih (n / 1024) (div * 1024) (exp + 1) (by omega)
      refine ⟨j + 1, ?_, ?_, Or.inr ?_⟩
      · rw [hj1, Prod.mk.injEq]
        constructor
        · rw [pow_succ]
          ring
        · omega
      · have := (Nat.div_lt_iff_lt_mul (show 0 < 1024 by omega)).mp hj2
        calc n < 1024 ^ (j + 1) * 1024 := this
        _ = 1024 ^ (j + 1 + 1) := (pow_succ 1024 (j + 1)).symm
      · rcases hj3 with hj3 | hj3
        · subst hj3
          simpa using h1
        · have := (Nat.le_div_iff_mul_le (show 0 < 1024 by omega)).mp hj3
          calc 1024 ^ (j + 1) = 1024 ^ j * 1024 := pow_succ 1024 j
          _ ≤ n := this
    · rw [if_neg h1]
      exact ⟨0, by simp, by simpa using Nat.lt_of_not_le h1, Or.inl rfl⟩

theorem rheInt_bounds (p q : Int) (hq : 0 < q) :
    2 * (rheInt p q * q) ≤ 2 * p + q ∧ 2 * p ≤ 2 * (rheInt p q * q) + q := by
  have hmod : q * (p / q) + p % q = p := Int.ediv_add_emod p q
  have h0 : 0 ≤ p % q := Int.emod_nonneg p (by omega)
  have h1 : p % q < q := Int.emod_lt_of_pos p hq
  simp only [rheInt]
  split_ifs with hA hB hC <;> constructor <;> nlinarith [hmod, h0, h1]

theorem rheInt_ge_ten (b div : Int) (hdiv : 0 < div) (hb : div ≤ b) :
    10 ≤ rheInt (10 * b) div := by
  have hf : 10 ≤ 10 * b / div := (Int.le_ediv_iff_mul_le hdiv).mpr (by omega)
  simp only [rheInt]
  split_ifs <;> omega

/-- C9 (counterexample): at `1024^5` bytes the formatter emits `"1.0 PB"`,
which `parseSize`'s unit class `[KMGT]?B?` rejects, so the round-trip is
undefined; and at 1280 bytes (`"1.2 KB"`, re-parsed 1228) the error of 52
bytes already exceeds half a decimal unit (`1024/20 = 51.2`), refuting the
claimed tolerance even where the parse succeeds. -/
theorem c9_counterexample :
    parseSize (formatBytes 1125899906842624) = none ∧
    formatBytes 1280 = "1.2 KB" ∧ parseSize (formatBytes 1280) = some 1228 ∧
    fbDiv 1280 < 20 * (1280 - 1228) := by
  decide

/-- C9 (amended): for `0 ≤ b < 1024^5` (the byte counts formatted with units
up to TB), re-parsing the formatted string succeeds, and the result differs
from `b` by at most half of one displayed decimal unit times the unit
multiplier — plus one more byte lost to the parser's integer truncation
(`20·(r−b) ≤ div` and `20·(b−r) ≤ div + 20`).  From `1024^5` upward the
formatter uses the `PB`/`EB` units that `parseSize` rejects. -/
theorem c9_amended (b : Int) (h0 : 0 ≤ b) (h5 : b < 1024 ^ 5) :
    ∃ r, parseSize (formatBytes b) = some r ∧
      20 * (r - b) ≤ fbDiv b ∧ 20 * (b - r) ≤ fbDiv b + 20 := by
  by_cases hsmall : b < 1024
  · obtain ⟨hval, hne, hdig⟩ := natToChars_spec b.toNat
    refine ⟨b, ?_, ?_, ?_⟩
    · rw [parseSize, formatBytes, if_pos hsmall]
      show parseSizeCore ((intToChars b ++ [' ', 'B']).map toUpperChar) = some b
      rw [intToChars, if_neg (by omega)]
      rw [map_toUpperChar_id]
      · rw [parseSizeCore_plain _ hne hdig, hval, Int.toNat_of_nonneg h0]
      · intro c hc
        rcases List.mem_append.mp hc with hc1 | hc1
        · exact isDigitChar_lt97 (hdig c hc1)
        · simp only [List.mem_cons, List.not_mem_nil, or_false] at hc1
          rcases hc1 with hc1 | hc1 <;> subst hc1 <;> decide
    · rw [fbDiv, if_pos hsmall]; omega
    · rw [fbDiv, if_pos hsmall]; omega
  · push_neg at hsmall
    obtain ⟨j, hloop, hlt, hge⟩ :=
      fbLoopCore_spec ((b / 1024).toNat + 1) ((b / 1024).toNat) 1024 0 (by omega)
    have hq0 : (0 : Int) ≤ b / 1024 := Int.ediv_nonneg h0 (by omega)
    have hbn : ((b / 1024).toNat : Int) = b / 1024 := Int.toNat_of_nonneg hq0
    have hdivpos : (0 : Int) < 1024 * 1024 ^ j := by positivity
    have hlt' : b < 1024 * (1024 * 1024 ^ j) := by
      have h2 : b / 1024 < (1024 : Int) ^ (j + 1) := by
        calc b / 1024 = ((b / 1024).toNat : Int) := hbn.symm
        _ < ((1024 ^ (j + 1) : Nat) : Int) := by exact_mod_cast hlt
        _ = (1024 : Int) ^ (j + 1) := by push_cast; ring
      have h3 := (Int.ediv_lt_iff_lt_mul (show (0 : Int) < 1024 by omega)).mp h2
      calc b < (1024 : Int) ^ (j + 1) * 1024 := h3
      _ = 1024 * (1024 * 1024 ^ j) := by rw [pow_succ]; ring
    have hge' : 1024 * (1024 : Int) ^ j ≤ b := by
      rcases hge with hj0 | hge
      · subst hj0; simpa using hsmall
      · have h2 : ((1024 : Int) ^ j) ≤ b / 1024 := by
          calc (1024 : Int) ^ j = ((1024 ^ j : Nat) : Int) := by push_cast; ring
          _ ≤ ((b / 1024).toNat : Int) := by exact_mod_cast hge
          _ = b / 1024 := hbn
        have h3 := (Int.le_ediv_iff_mul_le (show (0 : Int) < 1024 by omega)).mp h2
        calc 1024 * (1024 : Int) ^ j = 1024 ^ j * 1024 := by ring
        _ ≤ b := h3
    have hj3 : j ≤ 3 := by
      by_contra hc
      push_neg at hc
      have h4 : (1024 : Int) ^ 4 ≤ 1024 ^ j := pow_le_pow_right₀ (by omega) (by omega)
      have h5' : (1024 : Int) ^ 5 ≤ 1024 * 1024 ^ j := by
        calc (1024 : Int) ^ 5 = 1024 * 1024 ^ 4 := by ring
        _ ≤ 1024 * 1024 ^ j := by nlinarith [h4]
      linarith [h5, hge', h5']
    obtain ⟨hu97, hus, humult⟩ := unitChar_facts j hj3
    set dv : Int := 1024 * 1024 ^ j with hdv
    set n10 : Int := rheInt (10 * b) dv with hn10def
    have h10 : 10 ≤ n10 := rheInt_ge_ten b dv hdivpos hge'
    obtain ⟨hkval, hkne, hkdig⟩ := natToChars_spec (n10.toNat / 10)
    have hddlt : n10.toNat % 10 < 10 := Nat.mod_lt _ (by omega)
    refine ⟨n10 * dv / 10, ?_, ?_, ?_⟩
    · rw [parseSize]
      simp only [formatBytes]
      rw [if_neg (by omega), hloop]
      dsimp only
      simp only [Nat.zero_add]
      rw [decChars1, List.append_assoc]
      simp only [List.cons_append, List.nil_append]
      show parseSizeCore ((List.map toUpperChar
        (natToChars (n10.toNat / 10) ++
          ['.', digitChar (n10.toNat % 10), ' ', unitChar j, 'B']))) = _
      rw [map_toUpperChar_id]
      · rw [parseSizeCore_onedec _ _ _ _ hkne hkdig hddlt hus humult, hkval]
        have hdveq : (1024 : Int) ^ (j + 1) = dv := by rw [pow_succ, hdv]; ring
        rw [hdveq]
        congr 1
        have hk : ((n10.toNat / 10 : Nat) : Int) * 10 + ((n10.toNat % 10 : Nat) : Int)
            = n10 := by omega
        calc (((n10.toNat / 10 : Nat) : Int) * dv * 10 +
              ((n10.toNat % 10 : Nat) : Int) * dv) / 10
            = ((((n10.toNat / 10 : Nat) : Int) * 10 +
                ((n10.toNat % 10 : Nat) : Int)) * dv) / 10 := by ring_nf
        _ = n10 * dv / 10 := by rw [hk]
      · intro c hc
        rcases List.mem_append.mp hc with hc1 | hc1
        · exact isDigitChar_lt97 (hkdig c hc1)
        · simp only [List.mem_cons, List.not_mem_nil, or_false] at hc1
          rcases hc1 with hc1 | hc1 | hc1 | hc1 | hc1 <;> subst hc1
          · decide
          · exact isDigitChar_lt97 (isDigitChar_digitChar hddlt)
          · decide
          · exact hu97
          · decide
    · have hfb : fbDiv b = dv := by
        simp only [fbDiv]
        rw [if_neg (by omega), hloop]
      rw [hfb]
      have hbd := rheInt_bounds (10 * b) dv hdivpos
      rw [← hn10def] at hbd
      have hP := Int.ediv_add_emod (n10 * dv) 10
      have hPm0 : 0 ≤ n10 * dv % 10 := Int.emod_nonneg _ (by omega)
      have hPm1 : n10 * dv % 10 < 10 := Int.emod_lt_of_pos _ (by omega)
      obtain ⟨P, hPdef⟩ : ∃ P, n10 * dv = P := ⟨_, rfl⟩
      rw [hPdef] at hbd hP hPm0 hPm1 ⊢
      omega
    · have hfb : fbDiv b = dv := by
        simp only [fbDiv]
        rw [if_neg (by omega), hloop]
      rw [hfb]
      have hbd := rheInt_bounds (10 * b) dv hdivpos
      rw [← hn10def] at hbd
      have hP := Int.ediv_add_emod (n10 * dv) 10
      have hPm0 : 0 ≤ n10 * dv % 10 := Int.emod_nonneg _ (by omega)
      have hPm1 : n10 * dv % 10 < 10 := Int.emod_lt_of_pos _ (by omega)
      obtain ⟨P, hPdef⟩ : ∃ P, n10 * dv = P := ⟨_, rfl⟩
      rw [hPdef] at hbd hP hPm0 hPm1 ⊢
      omega

/-- C9 (witness): the amended round-trip bound applied at 1536 bytes
(formatted `"1.5 KB"`, re-parsed exactly). -/
theorem c9_witness :
    ∃ r, parseSize (formatBytes 1536) = some r ∧
      20 * (r - 1536) ≤ fbDiv 1536 ∧ 20 * (1536 - r) ≤ fbDiv 1536 + 20 :=
  c9_amended 1536 (by decide) (by decide)

/-! ## Conformance with the repository's own test vectors
(`config_test.go`, `client_test.go`, `format_test.go`) -/

theorem conformance_parseAge :
    parseAge "1s" = some 1000000000 ∧ parseAge "30m" = some 1800000000000 ∧
    parseAge "24h" = some 86400000000000 ∧ parseAge "7d" = some 604800000000000 ∧
    parseAge "2w" = some 1209600000000000 ∧ parseAge "invalid" = none ∧
    parseAge "" = none ∧ parseAge "1x" = none := by
  decide

theorem conformance_parseSize :
    parseSize "100B" = some 100 ∧ parseSize "1KB" = some 1024 ∧
    parseSize "1MB" = some 1048576 ∧ parseSize "1GB" = some 1073741824 ∧
    parseSize "1TB" = some 1099511627776 ∧ parseSize "500MB" = some 524288000 ∧
    parseSize "invalid" = none ∧ parseSize "" = none ∧
    parseSize "100XB" = none := by
  decide

theorem conformance_parseESSize :
    parseESSize "1b" = some 1 ∧ parseESSize "1kb" = some 1024 ∧
    parseESSize "1mb" = some 1048576 ∧ parseESSize "1gb" = some 1073741824 ∧
    parseESSize "1tb" = some 1099511627776 ∧
    parseESSize "1.5gb" = some 1610612736 ∧ parseESSize "500mb" = some 524288000 ∧
    parseESSize "invalid" = none ∧ parseESSize "100xb" = none := by
  decide

theorem conformance_formatBytes :
    formatBytes 0 = "0 B" ∧ formatBytes 1 = "1 B" ∧
    formatBytes 1023 = "1023 B" ∧ formatBytes 1024 = "1.0 KB" ∧
    formatBytes 1536 = "1.5 KB" ∧ formatBytes 1048576 = "1.0 MB" ∧
    formatBytes 1073741824 = "1.0 GB" ∧ formatBytes 1099511627776 = "1.0 TB" ∧
    formatBytes 1125899906842624 = "1.0 PB" ∧
    formatBytes 1152921504606846976 = "1.0 EB" ∧
    formatBytes 5368709120 = "5.0 GB" ∧ formatBytes 549755813888 = "512.0 GB" ∧
    formatBytes 1000 = "1000 B" ∧ formatBytes 1500000 = "1.4 MB" := by
  decide

end Trimmer
